import Mathlib

/-!
Shallow embedding of the `bindata` command (simleb/bindata, file `bindata.go`).

The program reads files, renders each file's bytes as a Go literal (a
`[]byte` composite literal via `ByteSliceFormatter.Format`, or a string
literal via `StringFormatter.Format`), and emits a generated Go source file
containing a map from file path to literal, via the `text/template` template
`tmpl`.

Machine bytes are modelled as `Nat` values below 256.  Generated text is
modelled as `List Char` internally and `String` at the interface.  A byte
source (`io.Reader` consumed through `bufio.Reader.ReadByte`) is modelled as
a list of read results: each call yields a byte, end-of-file, or a read
error; the Go loops stop at the first non-nil error of any kind.
-/

namespace Bindata

/-- Lowercase hex digit character for `n < 16`, as produced by Go's `%x` verb. -/
def hexDigitChar (n : Nat) : Char :=
  if n < 10 then Char.ofNat (48 + n) else Char.ofNat (87 + n)

/-- Minimal lowercase hex representation of a byte `b`, as produced by Go's
`%x`: one digit for `b < 16`, two digits otherwise (`b < 256`). -/
def goHexMin (b : Nat) : List Char :=
  if b < 16 then [hexDigitChar b] else [hexDigitChar (b / 16), hexDigitChar (b % 16)]

/-- Go's `fmt.Sprintf "%#02x" b` for a byte `b` (bindata.go line 201).
The `#` flag prepends `0x`; the width 2 counts the whole formatted value
including the `0x` prefix, and `0x` plus at least one digit is already three
characters, so the zero-padding never fires: bytes below `0x10` are rendered
with a single hex digit. -/
def sharp02x (b : Nat) : List Char :=
  '0' :: 'x' :: goHexMin b

/-- Go's `fmt.Sprintf "\\x%02x" b` for a byte `b` (bindata.go line 224):
a backslash, an `x`, then exactly two zero-padded lowercase hex digits. -/
def escX02 (b : Nat) : List Char :=
  '\\' :: 'x' :: hexDigitChar (b / 16) :: [hexDigitChar (b % 16)]

/-- One result of `bufio.Reader.ReadByte`: a byte and nil error, an `io.EOF`
error, or any other (genuine I/O) error. -/
inductive ReadResult where
  | byte (b : Nat)
  | eofMark
  | readErr
  deriving DecidableEq

/-- Body of the `ByteSliceFormatter.Format` loop (bindata.go lines 194-203),
started at loop counter `i`: while reads succeed, emit `"\n\t\t"` every
`cols = 12` bytes and a single space otherwise, then the `%#02x` rendering of
the byte and a comma.  The loop exits at the first non-nil read error,
whether it is `io.EOF` or a real failure; the error value is never used. -/
def byteBodyS : Nat → List ReadResult → List Char
  | _, [] => []
  | i, ReadResult.byte b :: rs =>
      (if i % 12 = 0 then ['\n', '\t', '\t'] else [' ']) ++
        sharp02x b ++ [','] ++ byteBodyS (i + 1) rs
  | _, ReadResult.eofMark :: _ => []
  | _, ReadResult.readErr :: _ => []

/-- `ByteSliceFormatter.Format` (bindata.go lines 188-205) on a read-result
stream: prints `[]byte{`, the loop body, and the closing `\n\t}`.  It has no
error output: the `fmt.Formatter` interface returns nothing. -/
def formatBytesStream (rs : List ReadResult) : String :=
  String.mk ("[]byte\x7b".data ++ byteBodyS 0 rs ++ "\n\t\x7d".data)

/-- `ByteSliceFormatter.Format` on a source that delivers the bytes `bs` and
then reports `io.EOF` (the normal case of reading a whole file). -/
def formatBytes (bs : List Nat) : String :=
  formatBytesStream (bs.map ReadResult.byte)

/-- Body of the `StringFormatter.Format` loop (bindata.go lines 219-226),
started at loop counter `i`: while reads succeed, emit the chunk separator
`"\" +\n\t\t\""` whenever `i % cols = 0` with `cols = 16` (including at
`i = 0`), then the `\xHH` escape of the byte.  As in the byte formatter, the
loop exits at the first non-nil read error of any kind. -/
def strBodyS : Nat → List ReadResult → List Char
  | _, [] => []
  | i, ReadResult.byte b :: rs =>
      (if i % 16 = 0 then ['"', ' ', '+', '\n', '\t', '\t', '"'] else []) ++
        escX02 b ++ strBodyS (i + 1) rs
  | _, ReadResult.eofMark :: _ => []
  | _, ReadResult.readErr :: _ => []

/-- `StringFormatter.Format` (bindata.go lines 213-228) on a read-result
stream: prints an opening quote, the loop body, and a closing quote. -/
def formatStringStream (rs : List ReadResult) : String :=
  String.mk ('"' :: strBodyS 0 rs ++ ['"'])

/-- `StringFormatter.Format` on a source that delivers the bytes `bs` and
then reports `io.EOF`. -/
def formatString (bs : List Nat) : String :=
  formatStringStream (bs.map ReadResult.byte)

/-! ### Decoders

Reference decoders that reverse the hex escapes of the generated literals,
used to state the round-trip property.  `decodeBytes` scans for `0x`
followed by a maximal run of lowercase hex digits; `decodeString` scans for
`\x` followed by two hex digits. -/

/-- Is `c` a lowercase hexadecimal digit (`0`-`9` or `a`-`f`)? -/
def isHexDigitChar (c : Char) : Bool :=
  (48 ≤ c.toNat && c.toNat ≤ 57) || (97 ≤ c.toNat && c.toNat ≤ 102)

/-- Numeric value of a lowercase hexadecimal digit character. -/
def hexVal (c : Char) : Nat :=
  if c.toNat ≤ 57 then c.toNat - 48 else c.toNat - 87

/-- Scanner state for decoding `0xHH`-style byte literals. -/
inductive BState where
  | idle
  | seen0
  | inHex (acc : Nat)
  deriving DecidableEq

/-- Byte-literal scanner: collects the value of every maximal hex token that
follows a `0x` marker. -/
def scanBytes : BState → List Char → List Nat
  | BState.idle, [] => []
  | BState.idle, c :: cs =>
      if c = '0' then scanBytes BState.seen0 cs else scanBytes BState.idle cs
  | BState.seen0, [] => []
  | BState.seen0, c :: cs =>
      if c = 'x' then scanBytes (BState.inHex 0) cs
      else if c = '0' then scanBytes BState.seen0 cs
      else scanBytes BState.idle cs
  | BState.inHex acc, [] => [acc]
  | BState.inHex acc, c :: cs =>
      if isHexDigitChar c then scanBytes (BState.inHex (16 * acc + hexVal c)) cs
      else if c = '0' then acc :: scanBytes BState.seen0 cs
      else acc :: scanBytes BState.idle cs

/-- Decode a `[]byte{...}` literal back to its byte sequence. -/
def decodeBytes (s : String) : List Nat :=
  scanBytes BState.idle s.data

/-- Scanner state for decoding `\xHH` string escapes. -/
inductive SState where
  | idle
  | slash
  | afterX
  | hex1 (v : Nat)
  deriving DecidableEq

/-- String-escape scanner: collects the value of every `\xHH` escape. -/
def scanEsc : SState → List Char → List Nat
  | SState.idle, [] => []
  | SState.idle, c :: cs =>
      if c = '\\' then scanEsc SState.slash cs else scanEsc SState.idle cs
  | SState.slash, [] => []
  | SState.slash, c :: cs =>
      if c = 'x' then scanEsc SState.afterX cs
      else if c = '\\' then scanEsc SState.slash cs
      else scanEsc SState.idle cs
  | SState.afterX, [] => []
  | SState.afterX, c :: cs =>
      if isHexDigitChar c then scanEsc (SState.hex1 (hexVal c)) cs
      else if c = '\\' then scanEsc SState.slash cs
      else scanEsc SState.idle cs
  | SState.hex1 _, [] => []
  | SState.hex1 v, c :: cs =>
      if isHexDigitChar c then (16 * v + hexVal c) :: scanEsc SState.idle cs
      else if c = '\\' then scanEsc SState.slash cs
      else scanEsc SState.idle cs

/-- Decode the `\xHH` escapes of a generated string literal, in order. -/
def decodeString (s : String) : List Nat :=
  scanEsc SState.idle s.data

/-- Number of string-literal chunks in a generated string expression: the
produced text contains no escaped quotes, so every pair of `"` characters
delimits one chunk. -/
def numChunks (s : String) : Nat :=
  s.data.count '"' / 2

/-- Number of `\xHH` escapes in a generated string expression: every
backslash in the produced text starts exactly one escape. -/
def escCount (s : String) : Nat :=
  s.data.count '\\'

/-! ### The `vars.Files` map, collection, and the template renderer -/

/-- A value stored in `vars.Files` (`map[string]fmt.Formatter`): either a
`ByteSliceFormatter` or a `StringFormatter`, wrapping the bytes its reader
will deliver (bindata.go lines 173-177). -/
inductive Fmtr where
  | bytes (content : List Nat)
  | str (content : List Nat)
  deriving DecidableEq

/-- Does this formatter render as a Go string literal? -/
def Fmtr.isStr : Fmtr → Bool
  | Fmtr.bytes _ => false
  | Fmtr.str _ => true

/-- The bytes the formatter's reader delivers. -/
def Fmtr.content : Fmtr → List Nat
  | Fmtr.bytes bs => bs
  | Fmtr.str bs => bs

/-- What `printf "%#v" $data` produces for a stored formatter: the
`fmt.Formatter` interface routes the verb to the wrapped `Format` method. -/
def fmtVal : Fmtr → String
  | Fmtr.bytes bs => formatBytes bs
  | Fmtr.str bs => formatString bs

/-- The Go map `vars.Files`, modelled as an association list with unique
keys; Go map iteration order is not observable here because the template
renderer sorts the keys. -/
abbrev GoMap := List (String × Fmtr)

/-- The keys of the map, in list order. -/
def goKeys (m : GoMap) : List String :=
  m.map Prod.fst

/-- Go map assignment `vars.Files[path] = f` (bindata.go lines 174/176):
replace the entry if the key is present, otherwise add it. -/
def insertEntry (m : GoMap) (k : String) (v : Fmtr) : GoMap :=
  if k ∈ goKeys m then
    m.map (fun p => if p.1 = k then (k, v) else p)
  else
    m ++ [(k, v)]

/-- Go map read `vars.Files[path]`: the value at key `k`, if present.  On
maps with unique keys the first match is the only match. -/
def goLookup : GoMap → String → Option Fmtr
  | [], _ => none
  | p :: rest, k => if k = p.1 then some p.2 else goLookup rest k

/-- The formatter `AddPath` stores for a regular file, chosen by the `-s`
flag (bindata.go lines 173-177). -/
def mkFormatter (asString : Bool) (content : List Nat) : Fmtr :=
  if asString then Fmtr.str content else Fmtr.bytes content

/-- The collection phase (the `AddPath` calls of `run`, bindata.go lines
124-129 and 145-180), flattened to the sequence of regular files it visits:
each visited file, with its computed relative key and its content, is
inserted into `vars.Files` in visit order. -/
def collect (asString : Bool) (files : List (String × List Nat)) : GoMap :=
  files.foldl (fun m f => insertEntry m f.1 (mkFormatter asString f.2)) []

/-- Go-syntax quoting of one character, as in the `%#v` rendering of a map
key (`strconv.Quote`): named escapes for the common control characters,
`\xHH` for other control bytes, backslash-escapes for `"` and `\`, and the
character itself otherwise. -/
def quoteGoChar (c : Char) : List Char :=
  if c = '"' then ['\\', '"']
  else if c = '\\' then ['\\', '\\']
  else if c = '\n' then ['\\', 'n']
  else if c = '\t' then ['\\', 't']
  else if c = '\r' then ['\\', 'r']
  else if c.toNat < 32 then '\\' :: 'x' :: hexDigitChar (c.toNat / 16) :: [hexDigitChar (c.toNat % 16)]
  else [c]

/-- Go-syntax quoted string, as `printf "%#v" $name` renders a map key. -/
def quoteGo (s : String) : String :=
  String.mk ('"' :: s.data.flatMap quoteGoChar ++ ['"'])

/-- The key sequence in which `text/template` visits a `range` over a map
with `string` keys: the distinct keys, in increasing order. -/
def sortedKeys (m : GoMap) : List String :=
  List.insertionSort (· ≤ ·) (goKeys m).dedup

/-- One rendered map entry of the template `tmpl` (bindata.go line 86):
newline, one tab, the quoted key, a colon and space, the formatter's output,
and a trailing comma. -/
def entryText (m : GoMap) (k : String) : String :=
  "\n\t" ++ quoteGo k ++ ": " ++ fmtVal ((goLookup m k).getD (Fmtr.bytes [])) ++ ","

/-- `tmpl.Execute` (bindata.go lines 80-88 and 141): the package clause, the
generated-file comment, the map variable declaration, each entry of
`vars.Files` in sorted key order, and the closing brace. -/
def render (pkg mapv : String) (asString : Bool) (m : GoMap) : String :=
  "package " ++ pkg ++
    "\n\n// This file is generated. Do not edit directly.\n\n// " ++
    mapv ++ " stores binary files as " ++
    (if asString then "strings" else "byte slices") ++
    " indexed by file paths.\nvar " ++ mapv ++ " = map[string]" ++
    (if asString then "string" else "[]byte") ++ "\x7b" ++
    String.join ((sortedKeys m).map (entryText m)) ++ "\n\x7d\n"

/-- Number of loop indices `j` with `i ≤ j < i + n` and `j % 16 = 0`: how
many times the string formatter's chunk-separator branch fires over `n`
bytes starting at loop counter `i`. -/
def chunkStarts : Nat → Nat → Nat
  | _, 0 => 0
  | i, n + 1 => (if i % 16 = 0 then 1 else 0) + chunkStarts (i + 1) n

/-- The content associated with the last occurrence of key `k` in a visit
sequence: Go map writes are last-wins. -/
def lastVal : List (String × List Nat) → String → Option (List Nat)
  | [], _ => none
  | f :: fs, k =>
      match lastVal fs k with
      | some c => some c
      | none => if f.1 = k then some f.2 else none

/-! ### The `main` wrapper and the file-handle event trace -/

/-- An output stream of the process. -/
inductive OutStream where
  | stdout
  | stderr
  deriving DecidableEq

/-- `main` (bindata.go lines 98-103), applied to the result of `run()`: on a
non-nil error it calls `fmt.Println("bindata:", err)` — which writes the
space-joined arguments and a newline to `os.Stdout` — and exits with status
1; otherwise it returns normally and the process exits with status 0.  The
result is the list of diagnostic writes and the exit status. -/
def mainGo (r : Except String Unit) : List (OutStream × String) × Nat :=
  match r with
  | Except.error e => ([(OutStream.stdout, "bindata: " ++ e ++ "\n")], 1)
  | Except.ok _ => ([], 0)

/-- A file-handle event of a run. -/
inductive Event where
  | openF (path : String)
  | readB (path : String)
  | closeF (path : String)
  deriving DecidableEq

/-- Is this event the closing of a handle? -/
def Event.isClose : Event → Bool
  | Event.closeF _ => true
  | _ => false

/-- Handle events of the collection phase: `AddPath` calls `os.Open` on
every regular file it visits (bindata.go line 165) and stores the handle in
the formatter; no `Close` occurs anywhere in the source. -/
def collectEvents (files : List (String × List Nat)) : List Event :=
  files.map (fun f => Event.openF f.1)

/-- Handle events of one formatter invocation: `Format` reads the wrapped
handle byte by byte through `bufio.Reader.ReadByte` until it is exhausted
(bindata.go lines 194-203 and 219-226) and never closes it. -/
def formatEvents (path : String) (content : List Nat) : List Event :=
  content.map (fun _ => Event.readB path)

/-- The file-handle event trace of a whole run: every visited file is opened
during collection, then the renderer consumes each stored formatter (in the
template's sorted key order); no close event is ever emitted because the
source contains no `Close` call. -/
def runTrace (asString : Bool) (files : List (String × List Nat)) : List Event :=
  collectEvents files ++
    (sortedKeys (collect asString files)).flatMap
      (fun k => formatEvents k (((goLookup (collect asString files) k).getD (Fmtr.bytes [])).content))

/-! ## Theorems -/

/-- C1: The claim says every byte is rendered as a two-hex-digit literal
`0xHH`, and that the 4-byte input `[0x00, 0x01, 0xFF, 0x7A]` yields the line
`0x00, 0x01, 0xff, 0x7a,`.  Evaluating `ByteSliceFormatter.Format` at that
input shows the code actually emits `0x0, 0x1, 0xff, 0x7a,`: the format verb
`%#02x` counts the `0x` prefix toward its width of 2, so bytes below `0x10`
get a single hex digit — contradicting the package's own doc-comment and
README example, which show `0x0a` and `0x09`. -/
theorem formatBytes_hex_width_bug :
    formatBytes [0x00, 0x01, 0xFF, 0x7A] = "[]byte\x7b\n\t\t0x0, 0x1, 0xff, 0x7a,\n\t\x7d"
    ∧ formatBytes [0x00, 0x01, 0xFF, 0x7A] ≠ "[]byte\x7b\n\t\t0x00, 0x01, 0xff, 0x7a,\n\t\x7d" := by
  exact ⟨rfl, by decide⟩

/-- C6: A zero-length byte stream makes `ByteSliceFormatter.Format` emit an
empty array literal with no byte literals in it, and makes
`StringFormatter.Format` emit exactly the empty string literal `""` (a
single chunk, no escapes). -/
theorem format_empty :
    formatBytes [] = "[]byte\x7b\n\t\x7d"
    ∧ (formatBytes []).data.count ',' = 0
    ∧ formatString [] = "\"\""
    ∧ numChunks (formatString []) = 1
    ∧ escCount (formatString []) = 0 := by
  exact ⟨rfl, by decide, rfl, by decide, by decide⟩

/-- C3 counterexample: the claim says a read error from the byte source is
propagated as an IOError and that a mid-stream read failure does not produce
a normally terminated literal with the error discarded.  In the code both
formatter loops exit on any non-nil `ReadByte` error and close the literal
normally; the `fmt.Formatter` interface gives them no error channel.  On a
source that delivers one byte and then fails, each formatter produces
exactly the text it produces on normal end-of-file. -/
theorem format_error_swallowed_counterexample :
    formatBytesStream [ReadResult.byte 0x41, ReadResult.readErr] = formatBytes [0x41]
    ∧ formatBytesStream [ReadResult.byte 0x41, ReadResult.readErr] = "[]byte\x7b\n\t\t0x41,\n\t\x7d"
    ∧ formatStringStream [ReadResult.byte 0x41, ReadResult.readErr] = formatString [0x41]
    ∧ formatStringStream [ReadResult.byte 0x41, ReadResult.readErr] = "\"\" +\n\t\t\"\\x41\"" := by
  exact ⟨rfl, rfl, rfl, rfl⟩

/-- C2 counterexample: the claim says `StringFormatter.Format` output
consists of exactly `ceil(n/16)` string-literal chunks.  For the single
byte `0x61` the output is `"" +⏎⇥⇥"\x61"` — two chunks, because the
separator branch also fires at loop index 0 and closes the initial quote
immediately, leaving a leading empty literal; `ceil(1/16) = 1 ≠ 2`. -/
theorem formatString_chunk_count_counterexample :
    formatString [0x61] = "\"\" +\n\t\t\"\\x61\""
    ∧ numChunks (formatString [0x61]) = 2
    ∧ (1 + 15) / 16 = 1
    ∧ numChunks (formatString [0x61]) ≠ (1 + 15) / 16 := by
  exact ⟨rfl, by decide, by decide, by decide⟩

/-- C8 counterexample: the claim says the error diagnostic goes to the
standard-error-equivalent stream.  `main` calls
`fmt.Println("bindata:", err)`, which writes to standard output: at a
concrete error the diagnostic write targets `stdout`, not `stderr`. -/
theorem main_error_stream_counterexample :
    mainGo (Except.error "stat foo: no such file or directory")
      = ([(OutStream.stdout, "bindata: stat foo: no such file or directory\n")], 1)
    ∧ OutStream.stdout ≠ OutStream.stderr := by
  exact ⟨rfl, by decide⟩

/-- C8 amended: on any error `main` prints the prefixed diagnostic
`bindata: <err>` (with a newline) to standard output — not standard error —
and exits with status 1; on success it prints no diagnostic and exits 0. -/
theorem main_exit_behavior_amended (e : String) :
    mainGo (Except.ok ()) = ([], 0)
    ∧ (mainGo (Except.error e)).2 = 1
    ∧ (mainGo (Except.error e)).1 = [(OutStream.stdout, "bindata: " ++ e ++ "\n")] := by
  exact ⟨rfl, rfl, rfl⟩

/-- C9 counterexample: the claim says every file handle opened at collection
time is closed once its formatter has consumed it.  In the run over a single
file `a.txt`, the trace contains the collection-time open of `a.txt` and its
formatter's reads, but no close event at all: the source never calls
`Close`. -/
theorem handle_never_closed_counterexample :
    Event.openF "a.txt" ∈ runTrace false [("a.txt", [0x41])]
    ∧ Event.readB "a.txt" ∈ runTrace false [("a.txt", [0x41])]
    ∧ (runTrace false [("a.txt", [0x41])]).contains (Event.closeF "a.txt") = false := by
  exact ⟨by decide, by decide, by decide⟩

lemma byteBodyS_err (bs : List Nat) (tail : List ReadResult) :
    ∀ i, byteBodyS i (bs.map ReadResult.byte ++ ReadResult.readErr :: tail)
      = byteBodyS i (bs.map ReadResult.byte) := by
  induction bs with
  | nil => intro i; simp [byteBodyS]
  | cons b bs ih => intro i; simp only [List.map_cons, List.cons_append, byteBodyS, List.append_eq, ih]

lemma strBodyS_err (bs : List Nat) (tail : List ReadResult) :
    ∀ i, strBodyS i (bs.map ReadResult.byte ++ ReadResult.readErr :: tail)
      = strBodyS i (bs.map ReadResult.byte) := by
  induction bs with
  | nil => intro i; simp [strBodyS]
  | cons b bs ih => intro i; simp only [List.map_cons, List.cons_append, strBodyS, List.append_eq, ih]

/-- C3 amended: the formatters never fail, but read errors are not
propagated either — the formatters have no error output at all.  A source
that delivers the bytes `bs` and then raises a genuine read error (not
`io.EOF`) produces exactly the normally terminated literal of `bs`: the
error silently truncates the stream and is discarded.  Whatever results the
source would have produced after the error is irrelevant. -/
theorem format_error_swallowed (bs : List Nat) (tail : List ReadResult) :
    formatBytesStream (bs.map ReadResult.byte ++ ReadResult.readErr :: tail) = formatBytes bs
    ∧ formatStringStream (bs.map ReadResult.byte ++ ReadResult.readErr :: tail) = formatString bs := by
  constructor
  · simp only [formatBytesStream, formatBytes, byteBodyS_err]
  · simp only [formatStringStream, formatString, strBodyS_err]

/-- C9 amended: no file handle is ever closed by the program.  The handle
event trace of any run contains collection-time opens and render-time reads
but no close event whatsoever — filtering the trace for close events always
yields the empty list: handles stay open until process exit. -/
theorem runTrace_no_close (asString : Bool) (files : List (String × List Nat)) :
    (runTrace asString files).filter Event.isClose = [] := by
  rw [runTrace, List.filter_append, List.filter_eq_nil_iff.mpr, List.filter_eq_nil_iff.mpr,
    List.append_nil]
  · intro e he
    rcases List.mem_flatMap.mp he with ⟨k, _, hk⟩
    rcases List.mem_map.mp hk with ⟨b, _, hb⟩
    rw [← hb]
    simp [Event.isClose]
  · intro e he
    rcases List.mem_map.mp he with ⟨f, _, hf⟩
    rw [← hf]
    simp [Event.isClose]

lemma mem_insertEntry {e : String × Fmtr} {m : GoMap} {k : String} {v : Fmtr}
    (h : e ∈ insertEntry m k v) : e ∈ m ∨ e = (k, v) := by
  unfold insertEntry at h
  split at h
  · rcases List.mem_map.mp h with ⟨p, hp, he⟩
    by_cases hpk : p.1 = k
    · right; simp [hpk] at he; exact he.symm
    · left; rw [if_neg hpk] at he; exact he ▸ hp
  · rcases List.mem_append.mp h with h | h
    · exact Or.inl h
    · right; simpa using h

lemma collect_isStr_aux (asString : Bool) :
    ∀ (files : List (String × List Nat)) (m : GoMap),
      (∀ e ∈ m, Fmtr.isStr e.2 = asString) →
      ∀ e ∈ files.foldl (fun m f => insertEntry m f.1 (mkFormatter asString f.2)) m,
        Fmtr.isStr e.2 = asString := by
  intro files
  induction files with
  | nil => intro m hm e he; exact hm e he
  | cons f fs ih =>
      intro m hm e he
      refine ih _ ?_ e he
      intro e' he'
      rcases mem_insertEntry he' with h | h
      · exact hm e' h
      · subst h; cases asString <;> simp [mkFormatter, Fmtr.isStr]

/-- C10: within a single run the literal form is uniform: the collection
phase stores, for every visited file, the formatter variant selected by the
`-s` flag — fixed before collection begins — so either every entry of
`vars.Files` is a `ByteSliceFormatter` or every entry is a
`StringFormatter`; the two are never mixed. -/
theorem collect_uniform_formatter (asString : Bool) (files : List (String × List Nat)) :
    ∀ e ∈ collect asString files, Fmtr.isStr e.2 = asString := by
  intro e he
  exact collect_isStr_aux asString files [] (by intro e' h; cases h) e he

/-- C10 witness: a concrete two-file collection in byte mode consists of
byte-slice formatters only. -/
theorem collect_uniform_formatter_witness :
    ("a.txt", Fmtr.bytes [0x41]) ∈ collect false [("a.txt", [0x41]), ("b.txt", [0x42])]
    ∧ Fmtr.isStr (Fmtr.bytes [0x41]) = false :=
  ⟨by decide,
   collect_uniform_formatter false [("a.txt", [0x41]), ("b.txt", [0x42])]
     ("a.txt", Fmtr.bytes [0x41]) (by decide)⟩

lemma goKeys_cons (p : String × Fmtr) (m : GoMap) : goKeys (p :: m) = p.1 :: goKeys m := rfl

lemma goLookup_map_ne (m : GoMap) (k : String) (v : Fmtr) (k' : String) (hne : k' ≠ k) :
    goLookup (m.map (fun p => if p.1 = k then (k, v) else p)) k' = goLookup m k' := by
  induction m with
  | nil => rfl
  | cons p rest ih =>
      by_cases hpk : p.1 = k
      · rw [List.map_cons, if_pos hpk]
        show (if k' = k then some v else _) = _
        rw [if_neg hne, goLookup, if_neg (hpk ▸ hne), ih]
      · rw [List.map_cons, if_neg hpk, goLookup, goLookup, ih]

lemma goLookup_map_mem (m : GoMap) (k : String) (v : Fmtr) (hk : k ∈ goKeys m) :
    goLookup (m.map (fun p => if p.1 = k then (k, v) else p)) k = some v := by
  induction m with
  | nil => cases hk
  | cons p rest ih =>
      by_cases hpk : p.1 = k
      · rw [List.map_cons, if_pos hpk]
        show (if k = k then some v else _) = _
        rw [if_pos rfl]
      · have hk' : k ∈ goKeys rest := by
          rw [goKeys_cons] at hk
          rcases List.mem_cons.mp hk with h | h
          · exact absurd h.symm hpk
          · exact h
        rw [List.map_cons, if_neg hpk, goLookup, if_neg (fun h => hpk h.symm), ih hk']

lemma goLookup_append_single (m : GoMap) (k : String) (v : Fmtr) (k' : String)
    (hk : k ∉ goKeys m) :
    goLookup (m ++ [(k, v)]) k' = if k' = k then some v else goLookup m k' := by
  induction m with
  | nil =>
      show (if k' = k then some v else none) = _
      rfl
  | cons p rest ih =>
      have hk1 : k ≠ p.1 := by
        intro h; exact hk (by rw [goKeys_cons]; exact List.mem_cons.mpr (Or.inl h))
      have hk2 : k ∉ goKeys rest := by
        intro h; exact hk (by rw [goKeys_cons]; exact List.mem_cons.mpr (Or.inr h))
      by_cases hp : k' = p.1
      · have hne : k' ≠ k := fun h => hk1 (h ▸ hp)
        rw [List.cons_append, goLookup, if_pos hp, goLookup, if_pos hp, if_neg hne]
      · rw [List.cons_append, goLookup, if_neg hp, ih hk2, goLookup, if_neg hp]

/-- Go map assignment, described pointwise: `m[k] = v` makes the value at
`k` equal `v` and leaves every other key unchanged. -/
lemma goLookup_insertEntry (m : GoMap) (k : String) (v : Fmtr) (k' : String) :
    goLookup (insertEntry m k v) k' = if k' = k then some v else goLookup m k' := by
  unfold insertEntry
  by_cases hk : k ∈ goKeys m
  · rw [if_pos hk]
    by_cases hne : k' = k
    · subst hne; rw [if_pos rfl, goLookup_map_mem m k' v hk]
    · rw [goLookup_map_ne m k v k' hne, if_neg hne]
  · rw [if_neg hk, goLookup_append_single m k v k' hk]

lemma goKeys_insertEntry_mem (m : GoMap) (k : String) (v : Fmtr) (hk : k ∈ goKeys m) :
    goKeys (insertEntry m k v) = goKeys m := by
  unfold insertEntry
  rw [if_pos hk]
  unfold goKeys
  rw [List.map_map]
  refine List.map_congr_left ?_
  intro p _
  by_cases hpk : p.1 = k
  · simp [hpk]
  · simp [hpk]

lemma goKeys_insertEntry_not_mem (m : GoMap) (k : String) (v : Fmtr) (hk : k ∉ goKeys m) :
    goKeys (insertEntry m k v) = goKeys m ++ [k] := by
  unfold insertEntry
  rw [if_neg hk]
  simp [goKeys]

/-- C7: collecting the same relative key twice does not fail: the Go map
write `vars.Files[path] = f` in `AddPath` silently overwrites — after the
write the key maps to the new formatter, every other key is untouched — and
the keys of the mapping stay unique across every collection step. -/
theorem insertEntry_last_wins (m : GoMap) (k : String) (v : Fmtr)
    (hnd : (goKeys m).Nodup) :
    goLookup (insertEntry m k v) k = some v
    ∧ (goKeys (insertEntry m k v)).Nodup
    ∧ ∀ k', k' ≠ k → goLookup (insertEntry m k v) k' = goLookup m k' := by
  refine ⟨by rw [goLookup_insertEntry, if_pos rfl], ?_, ?_⟩
  · by_cases hk : k ∈ goKeys m
    · rw [goKeys_insertEntry_mem m k v hk]; exact hnd
    · rw [goKeys_insertEntry_not_mem m k v hk]
      refine List.Nodup.append hnd (List.nodup_singleton k) ?_
      intro a ha hak
      rw [List.mem_singleton] at hak
      exact hk (hak ▸ ha)
  · intro k' hne
    rw [goLookup_insertEntry, if_neg hne]

/-- C7 witness: overwriting the key `a` in a concrete one-entry map. -/
theorem insertEntry_last_wins_witness :
    (goKeys [("a", Fmtr.bytes [1])]).Nodup
    ∧ goLookup (insertEntry [("a", Fmtr.bytes [1])] "a" (Fmtr.bytes [2])) "a"
        = some (Fmtr.bytes [2])
    ∧ (goKeys (insertEntry [("a", Fmtr.bytes [1])] "a" (Fmtr.bytes [2]))).Nodup
    ∧ goLookup (insertEntry [("a", Fmtr.bytes [1])] "a" (Fmtr.bytes [2])) "b"
        = goLookup [("a", Fmtr.bytes [1])] "b" :=
  ⟨by decide,
   (insertEntry_last_wins [("a", Fmtr.bytes [1])] "a" (Fmtr.bytes [2]) (by decide)).1,
   (insertEntry_last_wins [("a", Fmtr.bytes [1])] "a" (Fmtr.bytes [2]) (by decide)).2.1,
   (insertEntry_last_wins [("a", Fmtr.bytes [1])] "a" (Fmtr.bytes [2]) (by decide)).2.2 "b"
     (by decide)⟩

lemma hexDigitChar_spec (d : Nat) (hd : d < 16) :
    isHexDigitChar (hexDigitChar d) = true ∧ hexVal (hexDigitChar d) = d := by
  interval_cases d <;> exact ⟨by decide, by decide⟩

lemma scanBytes_skip (cs : List Char) (h : ∀ c ∈ cs, c ≠ '0') (rest : List Char) :
    scanBytes BState.idle (cs ++ rest) = scanBytes BState.idle rest := by
  induction cs with
  | nil => rfl
  | cons c cs ih =>
      rw [List.cons_append, scanBytes, if_neg (h c (List.mem_cons_self c cs))]
      exact ih (fun c' hc' => h c' (List.mem_cons_of_mem c hc'))

lemma scanBytes_token (b : Nat) (hb : b < 256) (rest : List Char) :
    scanBytes BState.idle (sharp02x b ++ ',' :: rest) = b :: scanBytes BState.idle rest := by
  have hc1 : ¬(isHexDigitChar ',' = true) := by decide
  have hc2 : ¬((',' : Char) = '0') := by decide
  show scanBytes BState.idle ('0' :: 'x' :: (goHexMin b ++ ',' :: rest)) = _
  rw [scanBytes, if_pos rfl, scanBytes, if_pos rfl]
  by_cases h16 : b < 16
  · rw [goHexMin, if_pos h16]
    show scanBytes (BState.inHex 0) (hexDigitChar b :: ',' :: rest) = _
    rw [scanBytes, if_pos (hexDigitChar_spec b h16).1, (hexDigitChar_spec b h16).2,
      Nat.mul_zero, Nat.zero_add, scanBytes, if_neg hc1, if_neg hc2]
  · have hhi : b / 16 < 16 := Nat.div_lt_of_lt_mul (by omega)
    have hlo : b % 16 < 16 := Nat.mod_lt b (by omega)
    rw [goHexMin, if_neg h16]
    show scanBytes (BState.inHex 0)
        (hexDigitChar (b / 16) :: hexDigitChar (b % 16) :: ',' :: rest) = _
    rw [scanBytes, if_pos (hexDigitChar_spec _ hhi).1, (hexDigitChar_spec _ hhi).2,
      Nat.mul_zero, Nat.zero_add, scanBytes, if_pos (hexDigitChar_spec _ hlo).1,
      (hexDigitChar_spec _ hlo).2, Nat.div_add_mod, scanBytes, if_neg hc1, if_neg hc2]

lemma scanBytes_byteBody (bs : List Nat) :
    ∀ (i : Nat) (tail : List Char), (∀ b ∈ bs, b < 256) →
      scanBytes BState.idle (byteBodyS i (bs.map ReadResult.byte) ++ tail)
        = bs ++ scanBytes BState.idle tail := by
  induction bs with
  | nil => intro i tail _; rfl
  | cons b bs ih =>
      intro i tail h
      have hb : b < 256 := h b (List.mem_cons_self b bs)
      have hbs : ∀ b' ∈ bs, b' < 256 := fun b' hb' => h b' (List.mem_cons_of_mem b hb')
      rw [List.map_cons, byteBodyS]
      have hsep : ∀ c ∈ (if i % 12 = 0 then ['\n', '\t', '\t'] else [' ']), c ≠ '0' := by
        split <;> decide
      calc scanBytes BState.idle
            ((if i % 12 = 0 then ['\n', '\t', '\t'] else [' ']) ++ sharp02x b ++ [','] ++
              byteBodyS (i + 1) (bs.map ReadResult.byte) ++ tail)
          = scanBytes BState.idle
            ((if i % 12 = 0 then ['\n', '\t', '\t'] else [' ']) ++
              (sharp02x b ++ ',' :: (byteBodyS (i + 1) (bs.map ReadResult.byte) ++ tail))) := by
            simp [List.append_assoc]
        _ = scanBytes BState.idle
              (sharp02x b ++ ',' :: (byteBodyS (i + 1) (bs.map ReadResult.byte) ++ tail)) :=
            scanBytes_skip _ hsep _
        _ = b :: scanBytes BState.idle (byteBodyS (i + 1) (bs.map ReadResult.byte) ++ tail) :=
            scanBytes_token b hb _
        _ = b :: (bs ++ scanBytes BState.idle tail) := by rw [ih (i + 1) tail hbs]
        _ = (b :: bs) ++ scanBytes BState.idle tail := rfl

/-- Decoding the `[]byte` literal recovers the bytes: shared kernel of the
round-trip property. -/
lemma decodeBytes_formatBytes (bs : List Nat) (h : ∀ b ∈ bs, b < 256) :
    decodeBytes (formatBytes bs) = bs := by
  show scanBytes BState.idle
      ("[]byte\x7b".data ++ byteBodyS 0 (bs.map ReadResult.byte) ++ "\n\t\x7d".data) = bs
  rw [List.append_assoc, scanBytes_skip "[]byte\x7b".data (by decide),
    scanBytes_byteBody bs 0 _ h]
  have htail : scanBytes BState.idle "\n\t\x7d".data = [] := by decide
  rw [htail, List.append_nil]

lemma scanEsc_skip (cs : List Char) (h : ∀ c ∈ cs, c ≠ '\\') (rest : List Char) :
    scanEsc SState.idle (cs ++ rest) = scanEsc SState.idle rest := by
  induction cs with
  | nil => rfl
  | cons c cs ih =>
      rw [List.cons_append, scanEsc, if_neg (h c (List.mem_cons_self c cs))]
      exact ih (fun c' hc' => h c' (List.mem_cons_of_mem c hc'))

lemma scanEsc_token (b : Nat) (hb : b < 256) (rest : List Char) :
    scanEsc SState.idle (escX02 b ++ rest) = b :: scanEsc SState.idle rest := by
  have hhi : b / 16 < 16 := Nat.div_lt_of_lt_mul (by omega)
  have hlo : b % 16 < 16 := Nat.mod_lt b (by omega)
  show scanEsc SState.idle
      ('\\' :: 'x' :: hexDigitChar (b / 16) :: hexDigitChar (b % 16) :: rest) = _
  rw [scanEsc, if_pos rfl, scanEsc, if_pos rfl, scanEsc, if_pos (hexDigitChar_spec _ hhi).1,
    (hexDigitChar_spec _ hhi).2, scanEsc, if_pos (hexDigitChar_spec _ hlo).1,
    (hexDigitChar_spec _ hlo).2, Nat.div_add_mod]

lemma scanEsc_strBody (bs : List Nat) :
    ∀ (i : Nat) (tail : List Char), (∀ b ∈ bs, b < 256) →
      scanEsc SState.idle (strBodyS i (bs.map ReadResult.byte) ++ tail)
        = bs ++ scanEsc SState.idle tail := by
  induction bs with
  | nil => intro i tail _; rfl
  | cons b bs ih =>
      intro i tail h
      have hb : b < 256 := h b (List.mem_cons_self b bs)
      have hbs : ∀ b' ∈ bs, b' < 256 := fun b' hb' => h b' (List.mem_cons_of_mem b hb')
      rw [List.map_cons, strBodyS]
      have hsep : ∀ c ∈ (if i % 16 = 0 then ['"', ' ', '+', '\n', '\t', '\t', '"'] else []),
          c ≠ '\\' := by
        split <;> decide
      calc scanEsc SState.idle
            ((if i % 16 = 0 then ['"', ' ', '+', '\n', '\t', '\t', '"'] else []) ++ escX02 b ++
              strBodyS (i + 1) (bs.map ReadResult.byte) ++ tail)
          = scanEsc SState.idle
            ((if i % 16 = 0 then ['"', ' ', '+', '\n', '\t', '\t', '"'] else []) ++
              (escX02 b ++ (strBodyS (i + 1) (bs.map ReadResult.byte) ++ tail))) := by
            simp [List.append_assoc]
        _ = scanEsc SState.idle (escX02 b ++ (strBodyS (i + 1) (bs.map ReadResult.byte) ++ tail)) :=
            scanEsc_skip _ hsep _
        _ = b :: scanEsc SState.idle (strBodyS (i + 1) (bs.map ReadResult.byte) ++ tail) :=
            scanEsc_token b hb _
        _ = b :: (bs ++ scanEsc SState.idle tail) := by rw [ih (i + 1) tail hbs]
        _ = (b :: bs) ++ scanEsc SState.idle tail := rfl

/-- Decoding the escapes of the string literal recovers the bytes: shared
kernel of the round-trip property. -/
lemma decodeString_formatString (bs : List Nat) (h : ∀ b ∈ bs, b < 256) :
    decodeString (formatString bs) = bs := by
  show scanEsc SState.idle ('"' :: (strBodyS 0 (bs.map ReadResult.byte) ++ ['"'])) = bs
  rw [scanEsc, if_neg (by decide), scanEsc_strBody bs 0 _ h]
  simp [scanEsc]

/-- C5: round-trip — for every byte sequence (the empty one and sequences
ranging over all 256 byte values included), reversing the hex escapes of the
literal produced by `ByteSliceFormatter.Format`, or of the one produced by
`StringFormatter.Format`, yields exactly the original bytes in order. -/
theorem decode_format_roundtrip (bs : List Nat) (h : ∀ b ∈ bs, b < 256) :
    decodeBytes (formatBytes bs) = bs ∧ decodeString (formatString bs) = bs :=
  ⟨decodeBytes_formatBytes bs h, decodeString_formatString bs h⟩

/-- C5 witness: the round-trip at a concrete sequence with small, large and
boundary byte values. -/
theorem decode_format_roundtrip_witness :
    (∀ b ∈ [0, 1, 15, 16, 171, 255], b < 256)
    ∧ decodeBytes (formatBytes [0, 1, 15, 16, 171, 255]) = [0, 1, 15, 16, 171, 255]
    ∧ decodeString (formatString [0, 1, 15, 16, 171, 255]) = [0, 1, 15, 16, 171, 255] :=
  ⟨by decide, (decode_format_roundtrip [0, 1, 15, 16, 171, 255] (by decide)).1,
   (decode_format_roundtrip [0, 1, 15, 16, 171, 255] (by decide)).2⟩

lemma chunkStarts_eq (n : Nat) : ∀ i, chunkStarts i n = (i + n + 15) / 16 - (i + 15) / 16 := by
  induction n with
  | zero => intro i; simp [chunkStarts]
  | succ n ih =>
      intro i
      rw [chunkStarts, ih (i + 1)]
      split <;> omega

lemma hexDigitChar_ne (d : Nat) (hd : d < 16) :
    hexDigitChar d ≠ '"' ∧ hexDigitChar d ≠ '\\' := by
  interval_cases d <;> exact ⟨by decide, by decide⟩

lemma count_quote_escX02 (b : Nat) (hb : b < 256) : (escX02 b).count '"' = 0 := by
  have hhi := hexDigitChar_ne (b / 16) (Nat.div_lt_of_lt_mul (by omega))
  have hlo := hexDigitChar_ne (b % 16) (Nat.mod_lt b (by omega))
  simp [escX02, List.count_cons, hhi.1, hlo.1]

lemma count_slash_escX02 (b : Nat) (hb : b < 256) : (escX02 b).count '\\' = 1 := by
  have hhi := hexDigitChar_ne (b / 16) (Nat.div_lt_of_lt_mul (by omega))
  have hlo := hexDigitChar_ne (b % 16) (Nat.mod_lt b (by omega))
  simp [escX02, List.count_cons, hhi.2, hlo.2]

lemma count_quote_strBody (bs : List Nat) :
    ∀ i, (∀ b ∈ bs, b < 256) →
      (strBodyS i (bs.map ReadResult.byte)).count '"' = 2 * chunkStarts i bs.length := by
  induction bs with
  | nil => intro i _; simp [strBodyS, chunkStarts]
  | cons b bs ih =>
      intro i h
      have hb : b < 256 := h b (List.mem_cons_self b bs)
      have hbs : ∀ b' ∈ bs, b' < 256 := fun b' hb' => h b' (List.mem_cons_of_mem b hb')
      rw [List.map_cons, strBodyS, List.append_assoc, List.count_append, List.count_append,
        count_quote_escX02 b hb, ih (i + 1) hbs, List.length_cons, chunkStarts]
      split
      · simp
        omega
      · simp

lemma count_slash_strBody (bs : List Nat) :
    ∀ i, (∀ b ∈ bs, b < 256) →
      (strBodyS i (bs.map ReadResult.byte)).count '\\' = bs.length := by
  induction bs with
  | nil => intro i _; simp [strBodyS]
  | cons b bs ih =>
      intro i h
      have hb : b < 256 := h b (List.mem_cons_self b bs)
      have hbs : ∀ b' ∈ bs, b' < 256 := fun b' hb' => h b' (List.mem_cons_of_mem b hb')
      rw [List.map_cons, strBodyS, List.append_assoc, List.count_append, List.count_append,
        count_slash_escX02 b hb, ih (i + 1) hbs, List.length_cons]
      split <;> simp <;> omega

/-- C2 amended: for every non-empty byte sequence of length `n`, the
`StringFormatter.Format` output consists of an initial **empty** string
literal followed by exactly `ceil(n/16)` data chunks, all joined by Go's
`+` concatenation operator — `ceil(n/16) + 1` string-literal chunks in
total, because the chunk-separator branch also fires at loop index 0 and
closes the opening quote immediately — and contains exactly `n` `\xHH`
two-hex-digit escapes matching the input bytes in order. -/
theorem formatString_chunks_amended (bs : List Nat) (_hne : bs ≠ [])
    (h : ∀ b ∈ bs, b < 256) :
    numChunks (formatString bs) = (bs.length + 15) / 16 + 1
    ∧ escCount (formatString bs) = bs.length
    ∧ decodeString (formatString bs) = bs := by
  refine ⟨?_, ?_, decodeString_formatString bs h⟩
  · show (('"' :: (strBodyS 0 (bs.map ReadResult.byte) ++ ['"'])).count '"') / 2 = _
    rw [List.count_cons_self, List.count_append, count_quote_strBody bs 0 h,
      chunkStarts_eq bs.length 0]
    simp
    omega
  · show ('"' :: (strBodyS 0 (bs.map ReadResult.byte) ++ ['"'])).count '\\' = _
    rw [List.count_cons_of_ne (by decide), List.count_append, count_slash_strBody bs 0 h]
    simp

/-- C2 witness: the amended chunk structure at a concrete 17-byte input,
which needs two data chunks plus the leading empty chunk. -/
theorem formatString_chunks_amended_witness :
    ([65, 0, 255, 1, 2, 3, 4, 5, 6, 7, 8, 9, 10, 11, 12, 13, 14] : List Nat) ≠ []
    ∧ (∀ b ∈ ([65, 0, 255, 1, 2, 3, 4, 5, 6, 7, 8, 9, 10, 11, 12, 13, 14] : List Nat), b < 256)
    ∧ numChunks (formatString [65, 0, 255, 1, 2, 3, 4, 5, 6, 7, 8, 9, 10, 11, 12, 13, 14]) = 3
    ∧ escCount (formatString [65, 0, 255, 1, 2, 3, 4, 5, 6, 7, 8, 9, 10, 11, 12, 13, 14]) = 17
    ∧ decodeString (formatString [65, 0, 255, 1, 2, 3, 4, 5, 6, 7, 8, 9, 10, 11, 12, 13, 14])
        = [65, 0, 255, 1, 2, 3, 4, 5, 6, 7, 8, 9, 10, 11, 12, 13, 14] :=
  ⟨by decide, by decide,
   (formatString_chunks_amended _ (by decide) (by decide)).1,
   (formatString_chunks_amended _ (by decide) (by decide)).2.1,
   (formatString_chunks_amended _ (by decide) (by decide)).2.2⟩

lemma goLookup_isSome_iff (m : GoMap) (k : String) :
    (goLookup m k).isSome = true ↔ k ∈ goKeys m := by
  induction m with
  | nil => simp [goLookup, goKeys]
  | cons p rest ih =>
      rw [goLookup, goKeys_cons]
      by_cases hp : k = p.1
      · simp [hp]
      · simp only [if_neg hp, List.mem_cons, ih]
        exact ⟨fun h => Or.inr h, fun h => h.resolve_left hp⟩

lemma goLookup_foldl (a : Bool) (fs : List (String × List Nat)) :
    ∀ (m : GoMap) (k : String),
      goLookup (fs.foldl (fun m f => insertEntry m f.1 (mkFormatter a f.2)) m) k
        = match lastVal fs k with
          | some c => some (mkFormatter a c)
          | none => goLookup m k := by
  induction fs with
  | nil => intro m k; rfl
  | cons f fs ih =>
      intro m k
      rw [List.foldl_cons, ih, lastVal]
      cases hl : lastVal fs k with
      | some c => rfl
      | none =>
          rw [goLookup_insertEntry]
          by_cases hk : k = f.1
          · rw [if_pos hk, if_pos hk.symm]
          · rw [if_neg hk, if_neg (fun h => hk h.symm)]

lemma goLookup_collect (a : Bool) (fs : List (String × List Nat)) (k : String) :
    goLookup (collect a fs) k = (lastVal fs k).map (mkFormatter a) := by
  rw [collect, goLookup_foldl]
  cases lastVal fs k <;> rfl

lemma lastVal_isSome_iff (fs : List (String × List Nat)) (k : String) :
    (lastVal fs k).isSome = true ↔ k ∈ fs.map Prod.fst := by
  induction fs with
  | nil => simp [lastVal]
  | cons f fs ih =>
      rw [lastVal, List.map_cons, List.mem_cons]
      cases hl : lastVal fs k with
      | some c =>
          have hk : k ∈ fs.map Prod.fst := ih.mp (by rw [hl]; rfl)
          show (some c).isSome = true ↔ k = f.1 ∨ k ∈ fs.map Prod.fst
          simp only [Option.isSome_some, true_iff]
          exact Or.inr hk
      | none =>
          rw [hl] at ih
          simp only [Option.isSome_none, Bool.false_eq_true, false_iff] at ih
          by_cases hk : f.1 = k
          · simp [hk]
          · simp only [if_neg hk, Option.isSome_none, Bool.false_eq_true, false_iff]
            intro h
            rcases h with h | h
            · exact hk h.symm
            · exact ih h

lemma lastVal_eq_some_iff (fs : List (String × List Nat)) (k : String) (c : List Nat)
    (hnd : (fs.map Prod.fst).Nodup) : lastVal fs k = some c ↔ (k, c) ∈ fs := by
  induction fs with
  | nil => simp [lastVal]
  | cons f fs ih =>
      rw [List.map_cons, List.nodup_cons] at hnd
      rw [lastVal, List.mem_cons]
      cases hl : lastVal fs k with
      | some c' =>
          rw [hl] at ih
          simp only [Option.some_inj]
          constructor
          · intro h; exact Or.inr ((ih hnd.2).mp (h ▸ hl ▸ rfl))
          · intro h
            rcases h with h | h
            · exfalso
              have hk : k ∈ fs.map Prod.fst := by
                rw [← lastVal_isSome_iff, hl]; rfl
              have : f.1 = k := by rw [← h]
              exact hnd.1 (this ▸ hk)
            · exact Option.some_inj.mp ((ih hnd.2).mpr h)
      | none =>
          rw [hl] at ih
          constructor
          · intro h
            by_cases hk : f.1 = k
            · rw [if_pos hk] at h
              left
              have : f.2 = c := Option.some_inj.mp h
              rw [← hk, ← this]
            · rw [if_neg hk] at h; cases h
          · intro h
            rcases h with h | h
            · have hk1 : f.1 = k := by rw [← h]
              have hc : f.2 = c := by rw [← h]
              rw [if_pos hk1, hc]
            · exact absurd ((ih hnd.2).mpr h) (by simp)

lemma lastVal_perm (fs1 fs2 : List (String × List Nat)) (k : String)
    (hp : fs1.Perm fs2) (hnd : (fs1.map Prod.fst).Nodup) :
    lastVal fs1 k = lastVal fs2 k := by
  have hnd2 : (fs2.map Prod.fst).Nodup := ((hp.map Prod.fst).nodup_iff).mp hnd
  cases h1 : lastVal fs1 k with
  | none =>
      cases h2 : lastVal fs2 k with
      | none => rfl
      | some c =>
          exfalso
          have : (k, c) ∈ fs2 := (lastVal_eq_some_iff fs2 k c hnd2).mp h2
          have : (k, c) ∈ fs1 := hp.symm.subset this
          have := (lastVal_eq_some_iff fs1 k c hnd).mpr this
          rw [h1] at this
          cases this
  | some c =>
      have : (k, c) ∈ fs1 := (lastVal_eq_some_iff fs1 k c hnd).mp h1
      exact ((lastVal_eq_some_iff fs2 k c hnd2).mpr (hp.subset this)).symm

lemma sortedKeys_congr (m1 m2 : GoMap) (h : ∀ k, goLookup m1 k = goLookup m2 k) :
    sortedKeys m1 = sortedKeys m2 := by
  have hmem : ∀ k, k ∈ (goKeys m1).dedup ↔ k ∈ (goKeys m2).dedup := by
    intro k
    rw [List.mem_dedup, List.mem_dedup, ← goLookup_isSome_iff, ← goLookup_isSome_iff, h k]
  have hperm : (goKeys m1).dedup.Perm (goKeys m2).dedup :=
    (List.perm_ext_iff_of_nodup (List.nodup_dedup _) (List.nodup_dedup _)).mpr hmem
  exact List.eq_of_perm_of_sorted
    ((List.perm_insertionSort _ _).trans (hperm.trans (List.perm_insertionSort _ _).symm))
    (List.sorted_insertionSort _ _) (List.sorted_insertionSort _ _)

lemma render_congr (pkg mapv : String) (a : Bool) (m1 m2 : GoMap)
    (h : ∀ k, goLookup m1 k = goLookup m2 k) :
    render pkg mapv a m1 = render pkg mapv a m2 := by
  unfold render
  rw [sortedKeys_congr m1 m2 h]
  have : (sortedKeys m2).map (entryText m1) = (sortedKeys m2).map (entryText m2) := by
    refine List.map_congr_left ?_
    intro k _
    unfold entryText
    rw [h k]
  rw [this]

/-- C4: the template renderer emits the entries of `vars.Files` in sorted
key order (the `text/template` `range` over a map visits keys in increasing
order), so two collections over the same set of files — in any filesystem
enumeration order or command-line argument order — produce byte-identical
generated text. -/
theorem render_sorted_deterministic (pkg mapv : String) (a : Bool)
    (files1 files2 : List (String × List Nat))
    (hnd : (files1.map Prod.fst).Nodup) (hperm : files1.Perm files2) :
    render pkg mapv a (collect a files1) = render pkg mapv a (collect a files2)
    ∧ List.Sorted (· ≤ ·) (sortedKeys (collect a files1)) := by
  constructor
  · apply render_congr
    intro k
    rw [goLookup_collect, goLookup_collect, lastVal_perm files1 files2 k hperm hnd]
  · exact List.sorted_insertionSort _ _

/-- C4 witness: collecting the same two files in either order renders the
identical artifact, with the emitted keys in sorted order. -/
theorem render_sorted_deterministic_witness :
    (([("b.txt", [66]), ("a.txt", [65])] : List (String × List Nat)).map Prod.fst).Nodup
    ∧ ([("b.txt", [66]), ("a.txt", [65])] : List (String × List Nat)).Perm
        [("a.txt", [65]), ("b.txt", [66])]
    ∧ render "main" "bindata" false (collect false [("b.txt", [66]), ("a.txt", [65])])
        = render "main" "bindata" false (collect false [("a.txt", [65]), ("b.txt", [66])])
    ∧ List.Sorted (· ≤ ·) (sortedKeys (collect false [("b.txt", [66]), ("a.txt", [65])])) :=
  ⟨by decide, List.Perm.swap _ _ _,
   (render_sorted_deterministic "main" "bindata" false _ _ (by decide)
     (List.Perm.swap _ _ _)).1,
   (render_sorted_deterministic "main" "bindata" false _ _ (by decide)
     (List.Perm.swap _ _ _)).2⟩

end Bindata
